import Mathlib

/-!
Shallow embedding of the inventory adjustment allocation tool (src/app.py).

Quantities are modelled as rationals (`ℚ`).  The pandas tables become lists
of records; the per-item greedy allocation loop (lines 74-99 of app.py)
becomes a structurally recursive function; the PRD classification (lines
62-69) and the final presentation sort (lines 113-115) are translated
directly.
-/

namespace InvObs

/-- The float tolerance `0.000001` used by the allocation loop. -/
def eps : ℚ := 1 / 1000000

/-- One inventory row: item number, location, batch number, on-hand quantity
(`Sum of Physical inventory`).  A missing (NaN) location is `none`. -/
structure Lot where
  item : String
  location : Option String
  batch : Option String
  qty : ℚ
deriving DecidableEq, Repr

/-- One adjustment request row: item number and target quantity. -/
structure Request where
  item : String
  target : ℚ
deriving DecidableEq, Repr

/-- One output row appended to `results` in app.py. -/
structure Decision where
  item : String
  location : Option String
  batch : Option String
  originalQty : ℚ
  indicator : ℕ
  allocated : ℚ
deriving DecidableEq, Repr

/-- `is_prd` (app.py lines 62-64): `False` for a missing location, otherwise
whether the upper-cased location contains the substring `"PRD"`.  Upper-casing
is modelled character-wise (`str.upper` maps each character to upper case),
and the Python `in` test is the list-infix test on the character sequences. -/
def is_prd (loc : Option String) : Bool :=
  match loc with
  | none => false
  | some s => decide ("PRD".data <:+: s.data.map Char.toUpper)

/-- One iteration of the allocation loop (app.py lines 80-90): given the
running `remaining_target` and the row's quantity, return
`(indicator, allocated, new remaining_target)`. -/
def allocStep (remaining q : ℚ) : ℕ × ℚ × ℚ :=
  if remaining ≤ eps then (0, 0, remaining)
  else if q ≤ remaining + eps then (1, q, remaining - q)
  else (2, remaining, 0)

/-- The result row appended for a non-PRD lot (app.py lines 92-99), including
the `allocated if indicator != 0 else 0` guard on line 98. -/
def mkRow (l : Lot) (indicator : ℕ) (allocated : ℚ) : Decision :=
  { item := l.item, location := l.location, batch := l.batch,
    originalQty := l.qty, indicator := indicator,
    allocated := if indicator ≠ 0 then allocated else 0 }

/-- The allocation loop over the (already sorted) non-PRD rows
(app.py lines 77-99). -/
def allocLots : ℚ → List Lot → List Decision
  | _, [] => []
  | remaining, l :: rest =>
    let s := allocStep remaining l.qty
    mkRow l s.1 s.2.1 :: allocLots s.2.2 rest

/-- The result row appended for a PRD lot (app.py lines 101-110). -/
def prdRow (l : Lot) : Decision :=
  { item := l.item, location := l.location, batch := l.batch,
    originalQty := l.qty, indicator := 0, allocated := 0 }

/-- Boolean comparison used to sort lots ascending by on-hand quantity. -/
def qtyLE (a b : Lot) : Bool := decide (a.qty ≤ b.qty)

/-- Boolean comparison sorting lots descending by on-hand quantity. -/
def qtyGE (a b : Lot) : Bool := decide (b.qty ≤ a.qty)

/-- `non_prd_rows.sort_values(by='Sum of Physical inventory', ascending=True)`
(app.py line 72): sort ascending by quantity. -/
def sortAsc (lots : List Lot) : List Lot := lots.mergeSort qtyLE

/-- The same rows sorted descending by quantity (the reordering considered by
the full-closure maximality property). -/
def sortDesc (lots : List Lot) : List Lot := lots.mergeSort qtyGE

/-- Processing of one requested item (app.py lines 62-110): split its
inventory rows into PRD and non-PRD, sort the non-PRD rows ascending by
quantity, run the greedy allocation on them, then emit the PRD rows with
indicator 0 and allocation 0. -/
def processItem (target : ℚ) (itemInv : List Lot) : List Decision :=
  allocLots target (sortAsc (itemInv.filter (fun l => !is_prd l.location))) ++
    (itemInv.filter (fun l => is_prd l.location)).map prdRow

/-- `inv_grouped.get_group(item)` (app.py lines 44, 56-57): the inventory
rows of one item, in input order. -/
def itemLots (inv : List Lot) (item : String) : List Lot :=
  inv.filter (fun l => l.item == item)

/-- The loop over adjustment rows (app.py lines 48-110), carrying the
`processed_items` set: a duplicate item is skipped, an item with no
inventory group is marked processed and skipped, otherwise its rows are
allocated and appended. -/
def processFrom (inv : List Lot) : List String → List Request → List Decision
  | _, [] => []
  | processed, r :: rest =>
    if r.item ∈ processed then processFrom inv processed rest
    else if (itemLots inv r.item).isEmpty then
      processFrom inv (r.item :: processed) rest
    else
      processItem r.target (itemLots inv r.item) ++
        processFrom inv (r.item :: processed) rest

/-- The whole `results` list built by app.py lines 43-110. -/
def processAll (reqs : List Request) (inv : List Lot) : List Decision :=
  processFrom inv [] reqs

/-- The lexicographic comparison of the final presentation sort
(app.py lines 114-115): item ascending, indicator descending, original
quantity ascending. -/
def finalLE (a b : Decision) : Bool :=
  decide (a.item < b.item ∨ (a.item = b.item ∧
    (b.indicator < a.indicator ∨ (a.indicator = b.indicator ∧
      a.originalQty ≤ b.originalQty))))

/-- `df_result.sort_values(by=[...], ascending=[True, False, True])`
(app.py lines 114-115).  A multi-column pandas sort is `np.lexsort`, which
is stable, so it is modelled by the stable `List.mergeSort`. -/
def assemble (rows : List Decision) : List Decision := rows.mergeSort finalLE

/-- The full pipeline: allocation over all requests, then the final sort. -/
def pipeline (reqs : List Request) (inv : List Lot) : List Decision :=
  assemble (processAll reqs inv)

/-- Sum of allocated quantities over a list of output rows. -/
def sumAlloc (ds : List Decision) : ℚ := (ds.map (·.allocated)).sum

/-- Sum of on-hand quantities over a list of lots. -/
def qtySum (ls : List Lot) : ℚ := (ls.map (·.qty)).sum

/-- Number of output rows carrying a given indicator. -/
def countInd (n : ℕ) (ds : List Decision) : ℕ :=
  ds.countP (fun d => d.indicator == n)

/-- The number of leading lots the greedy loop fully consumes (indicator 1),
expressed directly on the quantity sequence. -/
def consumeCount : ℚ → List ℚ → ℕ
  | _, [] => 0
  | t, q :: rest =>
    if t ≤ eps then 0
    else if q ≤ t + eps then consumeCount (t - q) rest + 1
    else 0

/-- Sum of the first `i` entries of a quantity sequence. -/
def psum (l : List ℚ) (i : ℕ) : ℚ := (l.take i).sum

/-- The prefix-sum conditions under which the greedy loop fully consumes the
first `m` lots of a quantity sequence. -/
def okRun (t : ℚ) (l : List ℚ) (m : ℕ) : Prop :=
  ∀ i < m, eps < t - psum l i ∧ psum l (i + 1) ≤ t + eps

example : allocLots 15 [⟨"A1", some "W", some "B1", 5⟩,
    ⟨"A1", some "W", some "B2", 10⟩, ⟨"A1", some "W", some "B3", 20⟩] =
    [⟨"A1", some "W", some "B1", 5, 1, 5⟩,
     ⟨"A1", some "W", some "B2", 10, 1, 10⟩,
     ⟨"A1", some "W", some "B3", 20, 0, 0⟩] := by
  norm_num [allocLots, allocStep, mkRow, eps]

example : allocLots 12 [⟨"A2", some "W", some "B1", 5⟩,
    ⟨"A2", some "W", some "B2", 10⟩] =
    [⟨"A2", some "W", some "B1", 5, 1, 5⟩,
     ⟨"A2", some "W", some "B2", 10, 2, 7⟩] := by
  norm_num [allocLots, allocStep, mkRow, eps]

example : is_prd (some "PRD-WH1") = true := by decide

example : is_prd (some "wprd3") = true := by decide

example : is_prd none = false ∧ is_prd (some "") = false := by decide

/-! ### Basic properties of the allocation loop -/

theorem eps_pos : 0 < eps := by norm_num [eps]

theorem allocLots_nil (t : ℚ) : allocLots t [] = [] := rfl

theorem allocLots_cons (t : ℚ) (l : Lot) (rest : List Lot) :
    allocLots t (l :: rest) =
      mkRow l (allocStep t l.qty).1 (allocStep t l.qty).2.1 ::
        allocLots (allocStep t l.qty).2.2 rest := rfl

/-- Once the remaining target is at or below the tolerance, every further row
gets indicator 0 and allocation 0, and the remaining target never changes. -/
theorem allocLots_of_le_eps {t : ℚ} (h : t ≤ eps) (lots : List Lot) :
    allocLots t lots = lots.map (fun l => mkRow l 0 0) := by
  induction lots with
  | nil => rfl
  | cons l rest ih =>
      rw [allocLots_cons, allocStep, if_pos h]
      simpa using ih

theorem indicator_mem_of_le_eps {t : ℚ} (h : t ≤ eps) {lots : List Lot}
    {d : Decision} (hd : d ∈ allocLots t lots) :
    d.indicator = 0 ∧ d.allocated = 0 := by
  rw [allocLots_of_le_eps h] at hd
  obtain ⟨l, -, rfl⟩ := List.mem_map.1 hd
  simp [mkRow]

theorem countInd_nil (n : ℕ) : countInd n [] = 0 := rfl

theorem countInd_of_le_eps {t : ℚ} (h : t ≤ eps) (lots : List Lot)
    {n : ℕ} (hn : n ≠ 0) : countInd n (allocLots t lots) = 0 := by
  rw [countInd, List.countP_eq_zero]
  intro d hd
  have := (indicator_mem_of_le_eps h hd).1
  simp [this, Ne.symm hn]

theorem sumAlloc_nil : sumAlloc [] = 0 := rfl

theorem sumAlloc_cons (d : Decision) (ds : List Decision) :
    sumAlloc (d :: ds) = d.allocated + sumAlloc ds := by
  simp [sumAlloc]

theorem sumAlloc_of_le_eps {t : ℚ} (h : t ≤ eps) (lots : List Lot) :
    sumAlloc (allocLots t lots) = 0 := by
  rw [allocLots_of_le_eps h]
  induction lots with
  | nil => rfl
  | cons l rest ih =>
      rw [List.map_cons, sumAlloc_cons, ih]
      simp [mkRow]

/-- C2: processing an item's eligible lots with `remaining` initialized to the
target, each lot's decision follows the three-way rule: remaining at or below
1e-6 gives indicator 0 and allocation 0; else a lot quantity at most
remaining + 1e-6 gives indicator 1, allocation equal to the lot quantity, and
remaining decreased by it; otherwise indicator 2, allocation equal to
remaining, and remaining set to 0.  A non-positive target behaves exactly as
target 0: every lot gets indicator 0 and allocation 0. -/
theorem greedy_per_lot_rule (t : ℚ) (l : Lot) (rest : List Lot) :
    (allocLots t (l :: rest) =
      if t ≤ eps then
        { item := l.item, location := l.location, batch := l.batch,
          originalQty := l.qty, indicator := 0, allocated := 0 } :: allocLots t rest
      else if l.qty ≤ t + eps then
        { item := l.item, location := l.location, batch := l.batch,
          originalQty := l.qty, indicator := 1, allocated := l.qty } ::
          allocLots (t - l.qty) rest
      else
        { item := l.item, location := l.location, batch := l.batch,
          originalQty := l.qty, indicator := 2, allocated := t } :: allocLots 0 rest)
    ∧ (t ≤ 0 →
        allocLots t (l :: rest) = allocLots 0 (l :: rest) ∧
        ∀ d ∈ allocLots t (l :: rest), d.indicator = 0 ∧ d.allocated = 0) := by
  constructor
  · rw [allocLots_cons, allocStep]
    split_ifs with h1 h2 <;> simp [mkRow]
  · intro ht
    have hte : t ≤ eps := le_trans ht (le_of_lt eps_pos)
    have h0e : (0 : ℚ) ≤ eps := le_of_lt eps_pos
    refine ⟨?_, fun d hd => indicator_mem_of_le_eps hte hd⟩
    rw [allocLots_of_le_eps hte, allocLots_of_le_eps h0e]

theorem greedy_per_lot_rule_witness :
    ((-1 : ℚ) ≤ 0) ∧
    (allocLots (-1) [⟨"A3", some "W", some "B1", 5⟩] =
      allocLots 0 [⟨"A3", some "W", some "B1", 5⟩] ∧
    ∀ d ∈ allocLots (-1) [⟨"A3", some "W", some "B1", 5⟩],
      d.indicator = 0 ∧ d.allocated = 0) :=
  ⟨by norm_num,
   (greedy_per_lot_rule (-1) ⟨"A3", some "W", some "B1", 5⟩ []).2 (by norm_num)⟩

/-- C10: an eligible lot with negative on-hand quantity is fully consumed
(indicator 1, allocation equal to the negative quantity) whenever the running
remaining target exceeds 1e-6, and the remaining target increases by the
magnitude of that quantity for the subsequent lots. -/
theorem negative_lot_full_consumption (t : ℚ) (l : Lot) (rest : List Lot)
    (ht : eps < t) (hq : l.qty < 0) :
    allocLots t (l :: rest) =
      { item := l.item, location := l.location, batch := l.batch,
        originalQty := l.qty, indicator := 1, allocated := l.qty } ::
        allocLots (t + |l.qty|) rest ∧
    t + |l.qty| = t - l.qty ∧ t < t + |l.qty| := by
  have habs : |l.qty| = -l.qty := abs_of_neg hq
  have hle : l.qty ≤ t + eps := by linarith [eps_pos]
  refine ⟨?_, by rw [habs]; ring, by rw [habs]; linarith⟩
  rw [allocLots_cons, allocStep, if_neg (not_le.2 ht), if_pos hle]
  rw [habs]
  simp [mkRow]
  ring_nf

theorem negative_lot_full_consumption_witness :
    (eps < (10 : ℚ)) ∧ ((-3 : ℚ) < 0) ∧
    (allocLots 10 [⟨"A", some "W1", some "B1", -3⟩] =
      [⟨"A", some "W1", some "B1", -3, 1, -3⟩] ∧
     (10 : ℚ) + |(-3 : ℚ)| = 10 - (-3) ∧ (10 : ℚ) < 10 + |(-3 : ℚ)|) := by
  refine ⟨by norm_num [eps], by norm_num, ?_⟩
  have h := negative_lot_full_consumption 10 ⟨"A", some "W1", some "B1", -3⟩ []
    (by norm_num [eps]) (by norm_num)
  refine ⟨?_, h.2⟩
  rw [h.1]
  norm_num [allocLots_nil]

/-! ### Conservation -/

theorem qtySum_nil : qtySum [] = 0 := rfl

theorem qtySum_cons (l : Lot) (ls : List Lot) :
    qtySum (l :: ls) = l.qty + qtySum ls := by simp [qtySum]

theorem qtySum_nonneg {ls : List Lot} (h : ∀ l ∈ ls, 0 ≤ l.qty) :
    0 ≤ qtySum ls := by
  induction ls with
  | nil => simp [qtySum_nil]
  | cons l rest ih =>
      rw [qtySum_cons]
      have := h l (List.mem_cons_self l rest)
      have := ih (fun x hx => h x (List.mem_cons_of_mem l hx))
      linarith

theorem allocLots_cons_zero {t : ℚ} (h : t ≤ eps) (l : Lot) (rest : List Lot) :
    allocLots t (l :: rest) = mkRow l 0 0 :: allocLots t rest := by
  rw [allocLots_cons, allocStep, if_pos h]

theorem allocLots_cons_full {t : ℚ} {l : Lot} (h1 : ¬ t ≤ eps)
    (h2 : l.qty ≤ t + eps) (rest : List Lot) :
    allocLots t (l :: rest) = mkRow l 1 l.qty :: allocLots (t - l.qty) rest := by
  rw [allocLots_cons, allocStep, if_neg h1, if_pos h2]

theorem allocLots_cons_part {t : ℚ} {l : Lot} (h1 : ¬ t ≤ eps)
    (h2 : ¬ l.qty ≤ t + eps) (rest : List Lot) :
    allocLots t (l :: rest) = mkRow l 2 t :: allocLots 0 rest := by
  rw [allocLots_cons, allocStep, if_neg h1, if_neg h2]

theorem mkRow_allocated (l : Lot) (n : ℕ) (a : ℚ) :
    (mkRow l n a).allocated = if n ≠ 0 then a else 0 := rfl

/-- Core of the conservation invariant: over any list of nonnegative lots and
a remaining target at least `-eps`, the allocated total differs from
`min target (total on hand)` by at most `eps`. -/
theorem conservation_core :
    ∀ (lots : List Lot) (t : ℚ), -eps ≤ t → (∀ l ∈ lots, 0 ≤ l.qty) →
      |sumAlloc (allocLots t lots) - min t (qtySum lots)| ≤ eps := by
  intro lots
  induction lots with
  | nil =>
      intro t ht _
      rw [allocLots_nil, sumAlloc_nil, qtySum_nil]
      rcases le_total 0 t with h | h
      · rw [min_eq_right h]
        simpa using le_of_lt eps_pos
      · rw [min_eq_left h, abs_le]
        constructor <;> linarith
  | cons l rest ih =>
      intro t ht hnn
      have hql : 0 ≤ l.qty := hnn l (List.mem_cons_self l rest)
      have hrest : ∀ x ∈ rest, 0 ≤ x.qty :=
        fun x hx => hnn x (List.mem_cons_of_mem l hx)
      have hS : 0 ≤ qtySum rest := qtySum_nonneg hrest
      rw [qtySum_cons]
      by_cases h1 : t ≤ eps
      · rw [sumAlloc_of_le_eps h1, abs_le]
        rcases le_total t (l.qty + qtySum rest) with h | h
        · rw [min_eq_left h]
          constructor <;> linarith
        · rw [min_eq_right h]
          constructor <;> linarith
      · by_cases h2 : l.qty ≤ t + eps
        · rw [allocLots_cons_full h1 h2, sumAlloc_cons, mkRow_allocated,
            if_pos (by norm_num : (1 : ℕ) ≠ 0)]
          have ih' := ih (t - l.qty) (by linarith) hrest
          have hmin : l.qty + min (t - l.qty) (qtySum rest) =
              min t (l.qty + qtySum rest) := by
            rw [← min_add_add_left, show l.qty + (t - l.qty) = t by ring]
          rw [← hmin, show l.qty + sumAlloc (allocLots (t - l.qty) rest) -
              (l.qty + min (t - l.qty) (qtySum rest)) =
              sumAlloc (allocLots (t - l.qty) rest) -
                min (t - l.qty) (qtySum rest) by ring]
          exact ih'
        · rw [allocLots_cons_part h1 h2, sumAlloc_cons, mkRow_allocated,
            if_pos (by norm_num : (2 : ℕ) ≠ 0),
            sumAlloc_of_le_eps (le_of_lt eps_pos)]
          push_neg at h2
          rw [min_eq_left (by linarith [eps_pos])]
          simpa using le_of_lt eps_pos

theorem mkRow_location (l : Lot) (n : ℕ) (a : ℚ) :
    (mkRow l n a).location = l.location := rfl

theorem allocLots_filter_eligible :
    ∀ (lots : List Lot) (t : ℚ), (∀ l ∈ lots, is_prd l.location = false) →
      (allocLots t lots).filter (fun d => !is_prd d.location) =
        allocLots t lots := by
  intro lots
  induction lots with
  | nil => intro t _; rfl
  | cons l rest ih =>
      intro t h
      rw [allocLots_cons,
        List.filter_cons_of_pos
          (by simp [mkRow_location, h l (List.mem_cons_self l rest)]),
        ih _ (fun x hx => h x (List.mem_cons_of_mem l hx))]

theorem prd_filter_none {prd : List Lot}
    (h : ∀ l ∈ prd, is_prd l.location = true) :
    (prd.map prdRow).filter (fun d => !is_prd d.location) = [] := by
  rw [List.filter_eq_nil_iff]
  intro d hd
  obtain ⟨l, hl, rfl⟩ := List.mem_map.1 hd
  simp [prdRow, h l hl]

/-- The eligible rows of an item's output are exactly the allocation run over
its sorted non-PRD lots. -/
theorem processItem_eligible (t : ℚ) (itemInv : List Lot) :
    (processItem t itemInv).filter (fun d => !is_prd d.location) =
      allocLots t (sortAsc (itemInv.filter (fun l => !is_prd l.location))) := by
  show ((allocLots t (sortAsc (itemInv.filter (fun l => !is_prd l.location))) ++
    (itemInv.filter (fun l => is_prd l.location)).map prdRow).filter
      (fun d => !is_prd d.location)) = _
  rw [List.filter_append,
    allocLots_filter_eligible _ t (by
      intro l hl
      rw [sortAsc, List.mem_mergeSort] at hl
      simpa using (List.mem_filter.1 hl).2),
    prd_filter_none (by
      intro l hl
      exact (List.mem_filter.1 hl).2),
    List.append_nil]

theorem qtySum_sortAsc (ls : List Lot) : qtySum (sortAsc ls) = qtySum ls := by
  rw [qtySum, qtySum]
  exact ((ls.mergeSort_perm qtyLE).map (fun l => l.qty)).sum_eq

/-- C1 (amended): for every item that has a request with nonnegative target
and at least one eligible (non-PRD) lot, where every eligible lot's on-hand
quantity is nonnegative, the sum of allocated_quantity over the item's
eligible output rows equals min(target, sum of eligible on-hand quantities)
within tolerance 1e-6. -/
theorem conservation (t : ℚ) (itemInv : List Lot)
    (helig : itemInv.filter (fun l => !is_prd l.location) ≠ [])
    (ht : 0 ≤ t)
    (hnn : ∀ l ∈ itemInv, is_prd l.location = false → 0 ≤ l.qty) :
    |sumAlloc ((processItem t itemInv).filter (fun d => !is_prd d.location)) -
      min t (qtySum (itemInv.filter (fun l => !is_prd l.location)))| ≤ eps := by
  rw [processItem_eligible]
  have hmem :
      ∀ l ∈ sortAsc (itemInv.filter (fun l => !is_prd l.location)), 0 ≤ l.qty := by
    intro l hl
    rw [sortAsc, List.mem_mergeSort] at hl
    have h := List.mem_filter.1 hl
    exact hnn l h.1 (by simpa using h.2)
  have hc := conservation_core _ t (by linarith [eps_pos]) hmem
  rwa [qtySum_sortAsc] at hc

/-- C1 as literally stated fails: with target -5 and one eligible lot of
on-hand quantity -100, no quantity is allocated while
min(target, on-hand total) = -100. -/
theorem conservation_cx :
    ¬ (|sumAlloc ((processItem (-5) [⟨"A", some "W1", some "B1", -100⟩]).filter
          (fun d => !is_prd d.location)) -
        min (-5 : ℚ) (qtySum (([⟨"A", some "W1", some "B1", -100⟩] :
          List Lot).filter (fun l => !is_prd l.location)))| ≤ eps) := by
  have hp : is_prd (some "W1") = false := by decide
  rw [processItem_eligible]
  simp only [List.filter_cons, List.filter_nil, hp, Bool.not_false, if_pos]
  rw [sortAsc, List.mergeSort_singleton,
    allocLots_cons_zero (by norm_num [eps]), allocLots_nil,
    sumAlloc_cons, sumAlloc_nil, mkRow_allocated, qtySum_cons, qtySum_nil,
    min_eq_right (by norm_num : (-100 : ℚ) + 0 ≤ -5)]
  norm_num [eps]

theorem conservation_witness :
    (([⟨"A1", some "W", some "B1", 5⟩, ⟨"A1", some "W", some "B2", 10⟩,
        ⟨"A1", some "W", some "B3", 20⟩] : List Lot).filter
        (fun l => !is_prd l.location) ≠ []) ∧ (0 ≤ (15 : ℚ)) ∧
    |sumAlloc ((processItem 15 [⟨"A1", some "W", some "B1", 5⟩,
        ⟨"A1", some "W", some "B2", 10⟩, ⟨"A1", some "W", some "B3", 20⟩]).filter
          (fun d => !is_prd d.location)) -
      min 15 (qtySum (([⟨"A1", some "W", some "B1", 5⟩,
        ⟨"A1", some "W", some "B2", 10⟩, ⟨"A1", some "W", some "B3", 20⟩] :
          List Lot).filter (fun l => !is_prd l.location)))| ≤ eps :=
  ⟨by decide, by norm_num,
    conservation 15
      [⟨"A1", some "W", some "B1", 5⟩, ⟨"A1", some "W", some "B2", 10⟩,
        ⟨"A1", some "W", some "B3", 20⟩]
      (by decide) (by norm_num) (by decide)⟩

/-! ### At most one partial allocation -/

theorem countInd_cons (n : ℕ) (d : Decision) (ds : List Decision) :
    countInd n (d :: ds) =
      countInd n ds + if d.indicator == n then 1 else 0 :=
  List.countP_cons _ _ _

theorem countInd_allocLots_two_le_one :
    ∀ (lots : List Lot) (t : ℚ), countInd 2 (allocLots t lots) ≤ 1 := by
  intro lots
  induction lots with
  | nil => intro t; simp [allocLots_nil, countInd]
  | cons l rest ih =>
      intro t
      by_cases h1 : t ≤ eps
      · rw [allocLots_cons_zero h1, countInd_cons]
        simpa [mkRow] using ih t
      · by_cases h2 : l.qty ≤ t + eps
        · rw [allocLots_cons_full h1 h2, countInd_cons]
          simpa [mkRow] using ih (t - l.qty)
        · rw [allocLots_cons_part h1 h2, countInd_cons,
            countInd_of_le_eps (le_of_lt eps_pos) rest (by norm_num)]
          simp [mkRow]

/-- Structure around an indicator-2 row of an allocation run: everything
before it is fully consumed, everything after it untouched, and at that row
the remaining target is above the tolerance yet more than the tolerance short
of the row's quantity; the partial allocation equals the remaining target. -/
theorem allocLots_partial_split :
    ∀ (lots : List Lot) (t : ℚ) (pre : List Decision) (d : Decision)
      (post : List Decision),
      allocLots t lots = pre ++ d :: post → d.indicator = 2 →
      (∀ x ∈ pre, x.indicator = 1) ∧ (∀ x ∈ post, x.indicator = 0) ∧
      eps < t - sumAlloc pre ∧ (t - sumAlloc pre) + eps < d.originalQty ∧
      d.allocated = t - sumAlloc pre := by
  intro lots
  induction lots with
  | nil =>
      intro t pre d post h _
      rw [allocLots_nil] at h
      exact absurd h (by simp)
  | cons l rest ih =>
      intro t pre d post h hd
      by_cases h1 : t ≤ eps
      · have hdmem : d ∈ allocLots t (l :: rest) := by simp [h]
        have := (indicator_mem_of_le_eps h1 hdmem).1
        omega
      · by_cases h2 : l.qty ≤ t + eps
        · rw [allocLots_cons_full h1 h2] at h
          cases pre with
          | nil =>
              have hd1 : d = mkRow l 1 l.qty := (List.cons_eq_cons.1 h).1.symm
              rw [hd1] at hd
              simp [mkRow] at hd
          | cons p pre' =>
              have hp : p = mkRow l 1 l.qty := ((List.cons_eq_cons.1 h).1).symm
              have htail : allocLots (t - l.qty) rest = pre' ++ d :: post :=
                (List.cons_eq_cons.1 h).2
              obtain ⟨ih1, ih2, ih3, ih4, ih5⟩ := ih (t - l.qty) pre' d post htail hd
              have hsum : sumAlloc (p :: pre') = l.qty + sumAlloc pre' := by
                rw [sumAlloc_cons, hp, mkRow_allocated,
                  if_pos (by norm_num : (1 : ℕ) ≠ 0)]
              refine ⟨?_, ih2, ?_, ?_, ?_⟩
              · intro x hx
                rcases List.mem_cons.1 hx with rfl | hx'
                · rw [hp]; simp [mkRow]
                · exact ih1 x hx'
              · rw [hsum]; linarith
              · rw [hsum]; linarith
              · rw [hsum]; rw [ih5]; ring
        · rw [allocLots_cons_part h1 h2] at h
          cases pre with
          | nil =>
              have hd2 : d = mkRow l 2 t := (List.cons_eq_cons.1 h).1.symm
              have hpost : allocLots 0 rest = post := (List.cons_eq_cons.1 h).2
              push_neg at h1 h2
              refine ⟨by simp, ?_, ?_, ?_, ?_⟩
              · intro x hx
                rw [← hpost] at hx
                exact (indicator_mem_of_le_eps (le_of_lt eps_pos) hx).1
              · rw [sumAlloc_nil]; linarith
              · rw [sumAlloc_nil, hd2]
                show t - 0 + eps < l.qty
                linarith
              · rw [sumAlloc_nil, hd2, mkRow_allocated,
                  if_pos (by norm_num : (2 : ℕ) ≠ 0)]
                ring
          | cons p pre' =>
              have htail : allocLots 0 rest = pre' ++ d :: post :=
                (List.cons_eq_cons.1 h).2
              have hdmem : d ∈ allocLots 0 rest := by simp [htail]
              have := (indicator_mem_of_le_eps (le_of_lt eps_pos) hdmem).1
              omega

/-- C4: every item's output has at most one indicator-2 (partial) row; when
one exists among the eligible rows it is the first lot, in ascending-quantity
order, at which the remaining target is still positive (above the tolerance)
but insufficient to consume the lot fully; every eligible lot before it is
fully consumed (indicator 1) and every lot after it gets indicator 0. -/
theorem at_most_one_partial_row (t : ℚ) (itemInv : List Lot) :
    countInd 2 (processItem t itemInv) ≤ 1 ∧
    ∀ pre d post,
      allocLots t (sortAsc (itemInv.filter (fun l => !is_prd l.location))) =
        pre ++ d :: post →
      d.indicator = 2 →
      (∀ x ∈ pre, x.indicator = 1) ∧ (∀ x ∈ post, x.indicator = 0) ∧
      eps < t - sumAlloc pre ∧ (t - sumAlloc pre) + eps < d.originalQty ∧
      d.allocated = t - sumAlloc pre := by
  constructor
  · show countInd 2 (_ ++ _) ≤ 1
    rw [countInd, List.countP_append]
    have hprd : ((itemInv.filter (fun l => is_prd l.location)).map
        prdRow).countP (fun d => d.indicator == 2) = 0 := by
      rw [List.countP_eq_zero]
      intro d hd
      obtain ⟨l, -, rfl⟩ := List.mem_map.1 hd
      simp [prdRow]
    rw [hprd]
    simpa using countInd_allocLots_two_le_one
      (sortAsc (itemInv.filter (fun l => !is_prd l.location))) t
  · intro pre d post h hd
    exact allocLots_partial_split _ t pre d post h hd

theorem at_most_one_partial_row_witness :
    countInd 2 (processItem 7 [⟨"A2", some "W", some "B1", 10⟩]) ≤ 1 ∧
    ((∀ x ∈ ([] : List Decision), x.indicator = 1) ∧
     (∀ x ∈ ([] : List Decision), x.indicator = 0) ∧
     eps < 7 - sumAlloc [] ∧ (7 - sumAlloc []) + eps <
       (⟨"A2", some "W", some "B1", 10, 2, 7⟩ : Decision).originalQty ∧
     (⟨"A2", some "W", some "B1", 10, 2, 7⟩ : Decision).allocated =
       7 - sumAlloc []) := by
  refine ⟨(at_most_one_partial_row 7 [⟨"A2", some "W", some "B1", 10⟩]).1,
    (at_most_one_partial_row 7 [⟨"A2", some "W", some "B1", 10⟩]).2
      [] ⟨"A2", some "W", some "B1", 10, 2, 7⟩ [] ?_ rfl⟩
  have hp : is_prd (some "W") = false := by decide
  simp only [List.filter_cons, List.filter_nil, hp, Bool.not_false, if_pos]
  rw [sortAsc, List.mergeSort_singleton,
    allocLots_cons_part (by norm_num [eps]) (by norm_num [eps]) [],
    allocLots_nil]
  simp [mkRow]

/-! ### Exclusion invariance -/

theorem allocLots_mem_location :
    ∀ (lots : List Lot) (t : ℚ) (d : Decision), d ∈ allocLots t lots →
      ∃ l ∈ lots, d.location = l.location := by
  intro lots
  induction lots with
  | nil => intro t d hd; rw [allocLots_nil] at hd; cases hd
  | cons l rest ih =>
      intro t d hd
      rw [allocLots_cons] at hd
      rcases List.mem_cons.1 hd with rfl | hd'
      · exact ⟨l, List.mem_cons_self l rest, rfl⟩
      · obtain ⟨x, hx, hxl⟩ := ih _ d hd'
        exact ⟨x, List.mem_cons_of_mem l hx, hxl⟩

/-- C5: a lot is excluded iff its location string, upper-cased, contains the
substring "PRD" (a missing location is never excluded), and for every target
value, every excluded lot's output row carries indicator 0 and allocated
quantity 0. -/
theorem exclusion_invariance :
    (∀ loc : Option String,
      is_prd loc = true ↔
        ∃ s, loc = some s ∧ "PRD".data <:+: s.data.map Char.toUpper) ∧
    is_prd none = false ∧
    (∀ (t : ℚ) (itemInv : List Lot) (d : Decision), d ∈ processItem t itemInv →
      is_prd d.location = true → d.indicator = 0 ∧ d.allocated = 0) := by
  refine ⟨?_, rfl, ?_⟩
  · intro loc
    cases loc with
    | none => simp [is_prd]
    | some s => simp [is_prd]
  · intro t itemInv d hd hloc
    rw [processItem] at hd
    rcases List.mem_append.1 hd with h | h
    · obtain ⟨l, hl, hleq⟩ := allocLots_mem_location _ t d h
      rw [sortAsc, List.mem_mergeSort] at hl
      have helig := (List.mem_filter.1 hl).2
      rw [hleq] at hloc
      rw [hloc] at helig
      simp at helig
    · obtain ⟨l, -, rfl⟩ := List.mem_map.1 h
      simp [prdRow]

theorem exclusion_invariance_witness :
    is_prd (some "PRD-WH1") = true ∧
    (⟨"A4", some "PRD-WH1", some "B", 50, 0, 0⟩ : Decision) ∈
      processItem 50 [⟨"A4", some "PRD-WH1", some "B", 50⟩] ∧
    ((⟨"A4", some "PRD-WH1", some "B", 50, 0, 0⟩ : Decision).indicator = 0 ∧
     (⟨"A4", some "PRD-WH1", some "B", 50, 0, 0⟩ : Decision).allocated = 0) := by
  have hp : is_prd (some "PRD-WH1") = true := by decide
  have hmem : (⟨"A4", some "PRD-WH1", some "B", 50, 0, 0⟩ : Decision) ∈
      processItem 50 [⟨"A4", some "PRD-WH1", some "B", 50⟩] := by
    rw [processItem]
    simp only [List.filter_cons, List.filter_nil, hp, Bool.not_true,
      Bool.false_eq_true, if_false, if_pos]
    rw [sortAsc, List.mergeSort_nil, allocLots_nil, List.nil_append]
    simp [prdRow]
  exact ⟨hp, hmem,
    (exclusion_invariance.2.2 50 [⟨"A4", some "PRD-WH1", some "B", 50⟩]
      ⟨"A4", some "PRD-WH1", some "B", 50, 0, 0⟩ hmem hp)⟩

/-! ### Duplicate requests -/

theorem processFrom_dup :
    ∀ (reqs1 : List Request) (seen : List String) (r : Request)
      (reqs2 : List Request) (inv : List Lot),
      (r.item ∈ seen ∨ ∃ r' ∈ reqs1, r'.item = r.item) →
      processFrom inv seen (reqs1 ++ r :: reqs2) =
        processFrom inv seen (reqs1 ++ reqs2) := by
  intro reqs1
  induction reqs1 with
  | nil =>
      intro seen r reqs2 inv h
      have hseen : r.item ∈ seen := by
        rcases h with h | ⟨r', hr', -⟩
        · exact h
        · cases hr'
      simp only [List.nil_append, processFrom, if_pos hseen]
  | cons a rest ih =>
      intro seen r reqs2 inv h
      simp only [List.cons_append, processFrom, List.append_eq]
      by_cases ha : a.item ∈ seen
      · rw [if_pos ha, if_pos ha]
        apply ih
        rcases h with h | ⟨r', hr', he⟩
        · exact Or.inl h
        · rcases List.mem_cons.1 hr' with rfl | hr''
          · exact Or.inl (he ▸ ha)
          · exact Or.inr ⟨r', hr'', he⟩
      · rw [if_neg ha, if_neg ha]
        have hdisj : r.item ∈ a.item :: seen ∨ ∃ r' ∈ rest, r'.item = r.item := by
          rcases h with h | ⟨r', hr', he⟩
          · exact Or.inl (List.mem_cons_of_mem _ h)
          · rcases List.mem_cons.1 hr' with rfl | hr''
            · exact Or.inl (he ▸ List.mem_cons_self _ _)
            · exact Or.inr ⟨r', hr'', he⟩
        by_cases hemp : (itemLots inv a.item).isEmpty
        · rw [if_pos hemp, if_pos hemp]
          exact ih _ r reqs2 inv hdisj
        · rw [if_neg hemp, if_neg hemp, ih _ r reqs2 inv hdisj]

/-- C9: if an item identifier appears more than once among the adjustment
requests, only the first occurrence in input order is processed: removing a
later occurrence (one whose item already occurs earlier in the request list)
leaves the output unchanged, so later occurrences contribute no output rows;
processing is total, so no error is raised. -/
theorem duplicate_request_ignored (reqs1 : List Request) (r : Request)
    (reqs2 : List Request) (inv : List Lot)
    (h : ∃ r' ∈ reqs1, r'.item = r.item) :
    processAll (reqs1 ++ r :: reqs2) inv = processAll (reqs1 ++ reqs2) inv :=
  processFrom_dup reqs1 [] r reqs2 inv (Or.inr h)

theorem duplicate_request_ignored_witness :
    (∃ r' ∈ [(⟨"A", 5⟩ : Request)], r'.item = (⟨"A", 7⟩ : Request).item) ∧
    processAll ([(⟨"A", 5⟩ : Request)] ++ (⟨"A", 7⟩ : Request) :: [])
        [⟨"A", some "W", some "B", 3⟩] =
      processAll ([(⟨"A", 5⟩ : Request)] ++ []) [⟨"A", some "W", some "B", 3⟩] :=
  ⟨⟨⟨"A", 5⟩, by simp, rfl⟩,
    duplicate_request_ignored [⟨"A", 5⟩] ⟨"A", 7⟩ [] [⟨"A", some "W", some "B", 3⟩]
      ⟨⟨"A", 5⟩, by simp, rfl⟩⟩

/-! ### No internal invariant check: negative allocations are emitted -/

/-- C8 evaluation at the failing input: with a request for item "A" of target
10 and a single eligible lot of on-hand quantity -3, the whole pipeline
completes and its output is exactly one row with indicator 1 and negative
allocated quantity -3 — no abort, the row is silently placed in the output. -/
theorem negative_allocation_emitted :
    pipeline [⟨"A", 10⟩] [⟨"A", some "W1", some "B1", -3⟩] =
      [⟨"A", some "W1", some "B1", -3, 1, -3⟩] ∧ ((-3 : ℚ) < 0) := by
  have hp : is_prd (some "W1") = false := by decide
  have hitem : processItem 10 [⟨"A", some "W1", some "B1", -3⟩] =
      [⟨"A", some "W1", some "B1", -3, 1, -3⟩] := by
    rw [processItem]
    simp only [List.filter_cons, List.filter_nil, hp, Bool.not_false,
      Bool.false_eq_true, if_false, if_pos]
    rw [sortAsc, List.mergeSort_singleton,
      allocLots_cons_full (by norm_num [eps]) (by norm_num [eps]) [],
      allocLots_nil]
    simp [mkRow]
  have hall : processAll [(⟨"A", 10⟩ : Request)]
      [⟨"A", some "W1", some "B1", -3⟩] =
      [⟨"A", some "W1", some "B1", -3, 1, -3⟩] := by
    rw [processAll]
    simp only [processFrom]
    rw [if_neg (by simp), if_neg (by decide)]
    rw [show itemLots [(⟨"A", some "W1", some "B1", -3⟩ : Lot)] "A" =
        [⟨"A", some "W1", some "B1", -3⟩] from by decide]
    rw [hitem]
    simp [processFrom]
  refine ⟨?_, by norm_num⟩
  rw [pipeline, assemble, hall, List.mergeSort_singleton]

/-! ### Assembler ordering -/

theorem finalLE_total (a b : Decision) : finalLE a b || finalLE b a := by
  rw [finalLE, finalLE, Bool.or_eq_true, decide_eq_true_iff, decide_eq_true_iff]
  rcases lt_trichotomy a.item b.item with h | h | h
  · exact Or.inl (Or.inl h)
  · rcases lt_trichotomy a.indicator b.indicator with hi | hi | hi
    · exact Or.inr (Or.inr ⟨h.symm, Or.inl hi⟩)
    · rcases le_total a.originalQty b.originalQty with hq | hq
      · exact Or.inl (Or.inr ⟨h, Or.inr ⟨hi, hq⟩⟩)
      · exact Or.inr (Or.inr ⟨h.symm, Or.inr ⟨hi.symm, hq⟩⟩)
    · exact Or.inl (Or.inr ⟨h, Or.inl hi⟩)
  · exact Or.inr (Or.inl h)

theorem finalLE_trans (a b c : Decision) :
    finalLE a b → finalLE b c → finalLE a c := by
  intro h1 h2
  rw [finalLE, decide_eq_true_iff] at h1 h2 ⊢
  rcases h1 with h1 | ⟨e1, h1⟩
  · rcases h2 with h2 | ⟨e2, h2⟩
    · exact Or.inl (h1.trans h2)
    · exact Or.inl (by rw [← e2]; exact h1)
  · rcases h2 with h2 | ⟨e2, h2⟩
    · exact Or.inl (by rw [e1]; exact h2)
    · refine Or.inr ⟨e1.trans e2, ?_⟩
      rcases h1 with hi1 | ⟨f1, hq1⟩
      · rcases h2 with hi2 | ⟨f2, hq2⟩
        · exact Or.inl (by omega)
        · exact Or.inl (by omega)
      · rcases h2 with hi2 | ⟨f2, hq2⟩
        · exact Or.inl (by omega)
        · exact Or.inr ⟨f1.trans f2, hq1.trans hq2⟩

/-- C7: the final result set is sorted by (item ascending, indicator
descending, original quantity ascending), and the presentation sort is stable
with respect to the order in which the rows were appended: any two rows that
stand in key order in the unsorted result list keep their relative order in
the sorted output (in particular, rows with equal keys do). -/
theorem assembler_ordering (reqs : List Request) (inv : List Lot) :
    (pipeline reqs inv).Pairwise (fun a b => finalLE a b = true) ∧
    (∀ a b : Decision, List.Sublist [a, b] (processAll reqs inv) →
      finalLE a b = true → List.Sublist [a, b] (pipeline reqs inv)) := by
  constructor
  · exact List.sorted_mergeSort finalLE_trans finalLE_total (processAll reqs inv)
  · intro a b hsub hle
    exact List.pair_sublist_mergeSort finalLE_trans finalLE_total hle hsub

theorem assembler_ordering_witness :
    List.Sublist [⟨"A", some "W1", some "B1", 10, 2, 7⟩,
        ⟨"A", some "PRD1", some "B2", 3, 0, 0⟩]
      (processAll [(⟨"A", 7⟩ : Request)]
        [⟨"A", some "W1", some "B1", 10⟩, ⟨"A", some "PRD1", some "B2", 3⟩]) ∧
    finalLE ⟨"A", some "W1", some "B1", 10, 2, 7⟩
      ⟨"A", some "PRD1", some "B2", 3, 0, 0⟩ = true ∧
    List.Sublist [⟨"A", some "W1", some "B1", 10, 2, 7⟩,
        ⟨"A", some "PRD1", some "B2", 3, 0, 0⟩]
      (pipeline [(⟨"A", 7⟩ : Request)]
        [⟨"A", some "W1", some "B1", 10⟩, ⟨"A", some "PRD1", some "B2", 3⟩]) := by
  have hp1 : is_prd (some "W1") = false := by decide
  have hp2 : is_prd (some "PRD1") = true := by decide
  have hitem : processItem 7
      [⟨"A", some "W1", some "B1", 10⟩, ⟨"A", some "PRD1", some "B2", 3⟩] =
      [⟨"A", some "W1", some "B1", 10, 2, 7⟩,
       ⟨"A", some "PRD1", some "B2", 3, 0, 0⟩] := by
    rw [processItem]
    simp only [List.filter_cons, List.filter_nil, hp1, hp2, Bool.not_false,
      Bool.not_true, Bool.false_eq_true, if_false, if_pos]
    rw [sortAsc, List.mergeSort_singleton,
      allocLots_cons_part (by norm_num [eps]) (by norm_num [eps]) [],
      allocLots_nil]
    simp [mkRow, prdRow]
  have hall : processAll [(⟨"A", 7⟩ : Request)]
      [⟨"A", some "W1", some "B1", 10⟩, ⟨"A", some "PRD1", some "B2", 3⟩] =
      [⟨"A", some "W1", some "B1", 10, 2, 7⟩,
       ⟨"A", some "PRD1", some "B2", 3, 0, 0⟩] := by
    rw [processAll]
    simp only [processFrom]
    rw [if_neg (by simp), if_neg (by decide)]
    rw [show itemLots [(⟨"A", some "W1", some "B1", 10⟩ : Lot),
        ⟨"A", some "PRD1", some "B2", 3⟩] "A" =
        [⟨"A", some "W1", some "B1", 10⟩, ⟨"A", some "PRD1", some "B2", 3⟩]
      from by decide]
    rw [hitem]
    simp [processFrom]
  have hf : finalLE ⟨"A", some "W1", some "B1", 10, 2, 7⟩
      ⟨"A", some "PRD1", some "B2", 3, 0, 0⟩ = true := by
    rw [finalLE, decide_eq_true_iff]
    exact Or.inr ⟨rfl, Or.inl (by norm_num)⟩
  have hs : List.Sublist [(⟨"A", some "W1", some "B1", 10, 2, 7⟩ : Decision),
      ⟨"A", some "PRD1", some "B2", 3, 0, 0⟩]
      (processAll [(⟨"A", 7⟩ : Request)]
        [⟨"A", some "W1", some "B1", 10⟩, ⟨"A", some "PRD1", some "B2", 3⟩]) := by
    rw [hall]
  exact ⟨hs, hf,
    (assembler_ordering [(⟨"A", 7⟩ : Request)]
      [⟨"A", some "W1", some "B1", 10⟩, ⟨"A", some "PRD1", some "B2", 3⟩]).2
      _ _ hs hf⟩

/-! ### Full-closure maximality -/

theorem consumeCount_nil (t : ℚ) : consumeCount t [] = 0 := rfl

theorem consumeCount_cons (t q : ℚ) (rest : List ℚ) :
    consumeCount t (q :: rest) =
      if t ≤ eps then 0
      else if q ≤ t + eps then consumeCount (t - q) rest + 1
      else 0 := rfl

theorem consumeCount_le_length : ∀ (l : List ℚ) (t : ℚ),
    consumeCount t l ≤ l.length := by
  intro l
  induction l with
  | nil => intro t; simp [consumeCount_nil]
  | cons q rest ih =>
      intro t
      rw [consumeCount_cons]
      split_ifs with h1 h2
      · simp
      · have := ih (t - q)
        simp only [List.length_cons]
        omega
      · simp

theorem psum_zero (l : List ℚ) : psum l 0 = 0 := rfl

theorem psum_cons_succ (q : ℚ) (rest : List ℚ) (i : ℕ) :
    psum (q :: rest) (i + 1) = q + psum rest i := by
  simp [psum]

theorem okRun_consumeCount : ∀ (l : List ℚ) (t : ℚ),
    okRun t l (consumeCount t l) := by
  intro l
  induction l with
  | nil =>
      intro t i hi
      rw [consumeCount_nil] at hi
      omega
  | cons q rest ih =>
      intro t i hi
      rw [consumeCount_cons] at hi
      split_ifs at hi with h1 h2
      · omega
      · match i with
        | 0 =>
            push_neg at h1
            refine ⟨?_, ?_⟩
            · rw [psum_zero]; linarith
            · rw [psum_cons_succ, psum_zero]; linarith
        | Nat.succ j =>
            have hj : j < consumeCount (t - q) rest := by omega
            obtain ⟨hA, hB⟩ := ih (t - q) j hj
            constructor
            · rw [psum_cons_succ]; linarith
            · rw [psum_cons_succ]; linarith
      · omega

theorem le_consumeCount_of_okRun :
    ∀ (l : List ℚ) (t : ℚ) (m : ℕ), okRun t l m → m ≤ l.length →
      m ≤ consumeCount t l := by
  intro l
  induction l with
  | nil =>
      intro t m _ hm
      rw [consumeCount_nil]
      simp at hm
      omega
  | cons q rest ih =>
      intro t m hok hm
      match m with
      | 0 => exact Nat.zero_le _
      | Nat.succ k =>
          obtain ⟨h1, h2⟩ := hok 0 (Nat.succ_pos k)
          rw [psum_zero] at h1
          rw [psum_cons_succ, psum_zero] at h2
          rw [consumeCount_cons, if_neg (not_le.mpr (by linarith)),
            if_pos (by linarith)]
          have hok' : okRun (t - q) rest k := by
            intro i hi
            obtain ⟨hA, hB⟩ := hok (i + 1) (by omega)
            rw [psum_cons_succ] at hA hB
            exact ⟨by linarith, by linarith⟩
          have := ih (t - q) k hok' (by
            simp only [List.length_cons] at hm
            omega)
          omega

theorem countInd_one_allocLots :
    ∀ (lots : List Lot) (t : ℚ),
      countInd 1 (allocLots t lots) = consumeCount t (lots.map (·.qty)) := by
  intro lots
  induction lots with
  | nil => intro t; rfl
  | cons l rest ih =>
      intro t
      rw [List.map_cons, consumeCount_cons]
      by_cases h1 : t ≤ eps
      · rw [if_pos h1]
        exact countInd_of_le_eps h1 _ (by norm_num)
      · by_cases h2 : l.qty ≤ t + eps
        · rw [if_neg h1, if_pos h2, allocLots_cons_full h1 h2, countInd_cons,
            ih (t - l.qty)]
          simp [mkRow]
        · rw [if_neg h1, if_neg h2, allocLots_cons_part h1 h2, countInd_cons,
            countInd_of_le_eps (le_of_lt eps_pos) rest (by norm_num)]
          simp [mkRow]

theorem sum_le_sum_idx :
    ∀ (l1 l2 : List ℚ), l1.length = l2.length →
      (∀ (j : ℕ) (h1 : j < l1.length) (h2 : j < l2.length),
        l1.get ⟨j, h1⟩ ≤ l2.get ⟨j, h2⟩) →
      l1.sum ≤ l2.sum := by
  intro l1
  induction l1 with
  | nil =>
      intro l2 hlen _
      rw [(List.length_eq_zero.1 hlen.symm : l2 = [])]
  | cons a l1' ih =>
      intro l2 hlen hj
      cases l2 with
      | nil => simp at hlen
      | cons b l2' =>
          have h0 : a ≤ b := hj 0 (by simp) (by simp)
          have hrest := ih l2' (by simpa using hlen) (fun j hj1 hj2 =>
            hj (j + 1) (by simpa using Nat.succ_lt_succ hj1)
              (by simpa using Nat.succ_lt_succ hj2))
          simp only [List.sum_cons]
          linarith

theorem pairwise_le_get_mono {l : List ℚ} (hs : l.Pairwise (· ≤ ·))
    (p q : ℕ) (hp : p < l.length) (hq : q < l.length) (hpq : p ≤ q) :
    l.get ⟨p, hp⟩ ≤ l.get ⟨q, hq⟩ := by
  rcases Nat.lt_or_ge p q with h | h
  · exact List.pairwise_iff_get.1 hs ⟨p, hp⟩ ⟨q, hq⟩ h
  · have : p = q := by omega
    subst this
    exact le_refl _

theorem psum_le_psum_reverse (l : List ℚ) (hs : l.Pairwise (· ≤ ·)) :
    ∀ i, psum l i ≤ psum l.reverse i := by
  intro i
  by_cases hi : i ≤ l.length
  · have hrev : psum l.reverse i = (l.drop (l.length - i)).sum := by
      rw [psum, List.take_reverse, List.sum_reverse]
    rw [hrev, psum]
    apply sum_le_sum_idx
    · rw [List.length_take, List.length_drop]
      omega
    · intro j h1 h2
      have hj1 : j < l.length := by
        have h1' := h1
        rw [List.length_take] at h1'
        omega
      have hj2 : l.length - i + j < l.length := by
        have h2' := h2
        rw [List.length_drop] at h2'
        omega
      have e1 : (l.take i).get ⟨j, h1⟩ = l.get ⟨j, hj1⟩ := by
        simp [List.get_eq_getElem, List.getElem_take]
      have e2 : (l.drop (l.length - i)).get ⟨j, h2⟩ =
          l.get ⟨l.length - i + j, hj2⟩ := by
        simp [List.get_eq_getElem, List.getElem_drop]
      rw [e1, e2]
      exact pairwise_le_get_mono hs j _ hj1 hj2 (by omega)
  · push_neg at hi
    rw [psum, psum, List.take_of_length_le (by omega),
      List.take_of_length_le (by rw [List.length_reverse]; omega),
      List.sum_reverse]

theorem qtyLE_trans (a b c : Lot) : qtyLE a b → qtyLE b c → qtyLE a c :=
  fun h1 h2 =>
    decide_eq_true (le_trans (of_decide_eq_true h1) (of_decide_eq_true h2))

theorem qtyLE_total (a b : Lot) : qtyLE a b || qtyLE b a := by
  rw [qtyLE, qtyLE, Bool.or_eq_true, decide_eq_true_iff, decide_eq_true_iff]
  exact le_total a.qty b.qty

theorem qtyGE_trans (a b c : Lot) : qtyGE a b → qtyGE b c → qtyGE a c :=
  fun h1 h2 =>
    decide_eq_true (le_trans (of_decide_eq_true h2) (of_decide_eq_true h1))

theorem qtyGE_total (a b : Lot) : qtyGE a b || qtyGE b a := by
  rw [qtyGE, qtyGE, Bool.or_eq_true, decide_eq_true_iff, decide_eq_true_iff]
  exact (le_total b.qty a.qty)

theorem sortAsc_qty_sorted (lots : List Lot) :
    ((sortAsc lots).map (·.qty)).Pairwise (· ≤ ·) :=
  (List.sorted_mergeSort qtyLE_trans qtyLE_total lots).map (fun l : Lot => l.qty)
    (fun _ _ h => of_decide_eq_true h)

theorem sortDesc_qty_sorted (lots : List Lot) :
    ((sortDesc lots).map (·.qty)).Pairwise (fun a b : ℚ => b ≤ a) :=
  (List.sorted_mergeSort qtyGE_trans qtyGE_total lots).map (fun l : Lot => l.qty)
    (fun _ _ h => of_decide_eq_true h)

/-- The descending-sorted quantity sequence is the reverse of the
ascending-sorted one. -/
theorem desc_qty_eq_reverse (lots : List Lot) :
    (sortDesc lots).map (·.qty) = ((sortAsc lots).map (·.qty)).reverse := by
  have hA := sortAsc_qty_sorted lots
  have hD := sortDesc_qty_sorted lots
  have hrev : (((sortDesc lots).map (·.qty)).reverse).Pairwise
      (fun a b : ℚ => a ≤ b) := List.pairwise_reverse.2 hD
  have hperm : ((sortAsc lots).map (·.qty)).Perm
      (((sortDesc lots).map (·.qty)).reverse) := by
    refine (((lots.mergeSort_perm qtyLE).map (·.qty)).trans ?_).trans
      (((sortDesc lots).map (·.qty)).reverse_perm).symm
    exact ((lots.mergeSort_perm qtyGE).map (·.qty)).symm
  have heq := List.eq_of_perm_of_sorted hperm hA hrev
  rw [heq, List.reverse_reverse]

/-- C3: for any target and any collection of lots, running the greedy
allocation on the lots sorted descending by quantity never yields a strictly
greater number of indicator-1 (fully consumed) rows than running it on the
lots sorted ascending by quantity. -/
theorem full_closure_maximality (t : ℚ) (lots : List Lot) :
    countInd 1 (allocLots t (sortDesc lots)) ≤
      countInd 1 (allocLots t (sortAsc lots)) := by
  rw [countInd_one_allocLots, countInd_one_allocLots]
  have hAs := sortAsc_qty_sorted lots
  have hDA := desc_qty_eq_reverse lots
  have hpsum : ∀ i, psum ((sortAsc lots).map (·.qty)) i ≤
      psum ((sortDesc lots).map (·.qty)) i := by
    intro i
    rw [hDA]
    exact psum_le_psum_reverse _ hAs i
  have hok : okRun t ((sortAsc lots).map (·.qty))
      (consumeCount t ((sortDesc lots).map (·.qty))) := by
    intro i hi
    obtain ⟨h1, h2⟩ := okRun_consumeCount ((sortDesc lots).map (·.qty)) t i hi
    have hpi := hpsum i
    exact ⟨by linarith, le_trans (hpsum (i + 1)) h2⟩
  have hlen : consumeCount t ((sortDesc lots).map (·.qty)) ≤
      ((sortAsc lots).map (·.qty)).length := by
    calc consumeCount t ((sortDesc lots).map (·.qty)) ≤
        ((sortDesc lots).map (·.qty)).length := consumeCount_le_length _ t
      _ = ((sortAsc lots).map (·.qty)).length := by
          rw [hDA, List.length_reverse]
  exact le_consumeCount_of_okRun _ t _ hok hlen

end InvObs
